import Mathlib

/-!
Shallow embedding of the indicator engine `fetch_crypto_data` from
`Lab 6/crypto_dashboard.py` (the pandas-based indicator pipeline).

Modelling choices:
* Prices are exact rationals (`ℚ`); each derived column that pandas fills
  with NaN before its rolling window is full is modelled as `Option ℚ`
  (`none` = the NaN "missing" marker).
* The RSI pipeline performs an unguarded float division, so it is carried
  out in `FVal`, a model of IEEE float values restricted to the finite /
  ±infinity / NaN distinctions the pipeline can produce.  The daily- and
  cumulative-return columns are modelled twice: an `Option ℚ` pipeline,
  faithful wherever no divisor price is zero, and a full `FVal` pipeline
  (`pct_changeF` / `cumulativeReturnListF`) that also carries the ±inf/NaN
  values a zero price produces; a lemma proves the two agree on series
  with all prices nonzero.
* `rolling(w).std()` computes the sample standard deviation, whose square
  root is irrational in general; the engine is parametrised by an abstract
  square-root function `sqrt : ℚ → ℚ` standing for the library's float
  square root.  All theorems about the bands hold for every such `sqrt`.
* `ewm(span, adjust=False).mean()` is total (no warm-up gap), hence plain
  `ℚ`-valued columns for EMA/MACD/Signal/Histogram.
* The volume frame is an un-transformed pass-through of the input in the
  source and carries no derived column, so it is not modelled.
-/

namespace CryptoDashboard

/-- Model of the pandas/NumPy float values reachable in the RSI pipeline:
a finite rational, a signed infinity, or NaN (which doubles as pandas'
missing-value marker). -/
inductive FVal where
  | fin (q : ℚ)
  | inf (pos : Bool)
  | nan
deriving DecidableEq, Repr

/-- IEEE-style addition on `FVal` (only the cases float `+` can reach). -/
def FVal.add : FVal → FVal → FVal
  | nan, _ => nan
  | _, nan => nan
  | fin a, fin b => fin (a + b)
  | fin _, inf s => inf s
  | inf s, fin _ => inf s
  | inf s, inf t => if s = t then inf s else nan

/-- IEEE-style subtraction on `FVal`. -/
def FVal.sub : FVal → FVal → FVal
  | nan, _ => nan
  | _, nan => nan
  | fin a, fin b => fin (a - b)
  | fin _, inf s => inf (!s)
  | inf s, fin _ => inf s
  | inf s, inf t => if s = t then nan else inf s

/-- IEEE-style division on `FVal`: a nonzero finite value divided by zero
gives a signed infinity, `0/0` gives NaN, a finite value divided by an
infinity gives `0`. -/
def FVal.div : FVal → FVal → FVal
  | nan, _ => nan
  | _, nan => nan
  | fin a, fin b =>
      if b ≠ 0 then fin (a / b)
      else if 0 < a then inf true
      else if a < 0 then inf false
      else nan
  | fin _, inf _ => fin 0
  | inf s, fin b => if 0 ≤ b then inf s else inf (!s)
  | inf _, inf _ => nan

/-- IEEE-style multiplication on `FVal`: `0 * ±inf` is NaN, otherwise the
sign of a product with an infinity follows the signs of the factors. -/
def FVal.mul : FVal → FVal → FVal
  | nan, _ => nan
  | _, nan => nan
  | fin a, fin b => fin (a * b)
  | fin a, inf s => if 0 < a then inf s else if a < 0 then inf (!s) else nan
  | inf s, fin b => if 0 < b then inf s else if b < 0 then inf (!s) else nan
  | inf s, inf t => if s = t then inf true else inf false

/-- One input sample: `data['prices']` row `[timestamp, price]` (timestamp
in epoch milliseconds). -/
structure PricePoint where
  timestamp : ℤ
  price : ℚ
deriving DecidableEq, Repr

/-- The trailing window of width `w` ending at row `i`:
the slice `xs[i-w+1 .. i]`. -/
def window (w i : ℕ) (xs : List ℚ) : List ℚ :=
  (xs.take (i + 1)).drop (i + 1 - w)

/-- `Series.rolling(w).mean()` at row `i`: defined once the window is full
(`i ≥ w-1`), NaN (`none`) before that. -/
def rollingMean (w : ℕ) (xs : List ℚ) (i : ℕ) : Option ℚ :=
  if w ≤ i + 1 ∧ i < xs.length then some ((window w i xs).sum / (w : ℚ))
  else none

/-- `Series.rolling(w).std()` squared: the sample variance (ddof = 1) of
the trailing window, with the same definedness as the rolling mean. -/
def rollingVar (w : ℕ) (xs : List ℚ) (i : ℕ) : Option ℚ :=
  (rollingMean w xs i).map
    (fun m => ((window w i xs).map (fun x => (x - m) ^ 2)).sum / ((w : ℚ) - 1))

/-- `Series.rolling(w).std()`, with the float square root abstracted as a
parameter `sqrt`. -/
def rollingStd (sqrt : ℚ → ℚ) (w : ℕ) (xs : List ℚ) (i : ℕ) : Option ℚ :=
  (rollingVar w xs i).map sqrt

/-- `Series.pct_change()` at row `i`: `(xs[i] - xs[i-1]) / xs[i-1]`,
NaN (`none`) at row 0.  This rational form is faithful where
`xs[i-1] ≠ 0`; the float error path on a zero denominator (±inf, or NaN
for 0/0) is modelled by `pct_changeF` below. -/
def pct_change (xs : List ℚ) (i : ℕ) : Option ℚ :=
  if 1 ≤ i ∧ i < xs.length then
    some ((xs.getD i 0 - xs.getD (i - 1) 0) / xs.getD (i - 1) 0)
  else none

/-- Recursion of `ewm(span, adjust=False).mean()` after the seed row:
each output is `a * x + (1 - a) * previous`. -/
def ewmGo (a prev : ℚ) : List ℚ → List ℚ
  | [] => []
  | x :: rest => (a * x + (1 - a) * prev) :: ewmGo a (a * x + (1 - a) * prev) rest

/-- `Series.ewm(span=span, adjust=False).mean()`: seeded at the first
value, smoothing factor `2 / (span + 1)`, defined at every row. -/
def ewm_mean (span : ℕ) (xs : List ℚ) : List ℚ :=
  match xs with
  | [] => []
  | x :: rest => x :: ewmGo (2 / ((span : ℚ) + 1)) x rest

/-- `delta = df['price'].diff()` at row `i` (NaN at row 0). -/
def deltaF (xs : List ℚ) (i : ℕ) : FVal :=
  if 1 ≤ i ∧ i < xs.length then .fin (xs.getD i 0 - xs.getD (i - 1) 0)
  else .nan

/-- `gain = delta.where(delta > 0, 0)` at row `i`.  `NaN > 0` is false in
pandas, so row 0 becomes `0`, never NaN; the result is a plain rational. -/
def gainAt (xs : List ℚ) (i : ℕ) : ℚ :=
  match deltaF xs i with
  | .fin d => if 0 < d then d else 0
  | _ => 0

/-- `loss = -delta.where(delta < 0, 0)` at row `i` (row 0 becomes `-0 = 0`). -/
def lossAt (xs : List ℚ) (i : ℕ) : ℚ :=
  match deltaF xs i with
  | .fin d => -(if d < 0 then d else 0)
  | _ => 0

/-- The gain series as a list aligned with the prices. -/
def gains (xs : List ℚ) : List ℚ := (List.range xs.length).map (gainAt xs)

/-- The loss series as a list aligned with the prices. -/
def losses (xs : List ℚ) : List ℚ := (List.range xs.length).map (lossAt xs)

/-- `avg_gain = gain.rolling(window=14).mean()`. -/
def avg_gain (xs : List ℚ) (i : ℕ) : Option ℚ := rollingMean 14 (gains xs) i

/-- `avg_loss = loss.rolling(window=14).mean()`. -/
def avg_loss (xs : List ℚ) (i : ℕ) : Option ℚ := rollingMean 14 (losses xs) i

/-- View of a possibly-missing rational as a float value (missing = NaN). -/
def optF : Option ℚ → FVal
  | some q => .fin q
  | none => .nan

/-- `rs = avg_gain / avg_loss`: elementwise float division, unguarded
against a zero denominator. -/
def rsF (xs : List ℚ) (i : ℕ) : FVal :=
  FVal.div (optF (avg_gain xs i)) (optF (avg_loss xs i))

/-- `df['RSI'] = 100 - (100 / (1 + rs))` in float arithmetic. -/
def rsiF (xs : List ℚ) (i : ℕ) : FVal :=
  FVal.sub (.fin 100) (FVal.div (.fin 100) (FVal.add (.fin 1) (rsF xs i)))

/-- `Series.cumprod()` with the default `skipna=True`: NaN entries stay
NaN in place, the running product accumulates over the non-NaN entries. -/
def cumprodGo (acc : ℚ) : List (Option ℚ) → List (Option ℚ)
  | [] => []
  | none :: rest => none :: cumprodGo acc rest
  | some x :: rest => some (acc * x) :: cumprodGo (acc * x) rest

/-- `Series.cumprod()` (running product starting from 1). -/
def cumprod_skipna (xs : List (Option ℚ)) : List (Option ℚ) := cumprodGo 1 xs

/-- `df['Daily Return'] = df['price'].pct_change()` as a list. -/
def dailyReturnList (xs : List ℚ) : List (Option ℚ) :=
  (List.range xs.length).map (pct_change xs)

/-- `df['Cumulative Return'] = (1 + df['Daily Return']).cumprod() - 1`
(`1 + NaN = NaN` and `NaN - 1 = NaN` elementwise). -/
def cumulativeReturnList (xs : List ℚ) : List (Option ℚ) :=
  ((cumprod_skipna ((dailyReturnList xs).map (Option.map (fun r => 1 + r)))).map
    (Option.map (fun p => p - 1)))

/-- `Series.pct_change()` in full float semantics: NaN at row 0, and the
unguarded float division at every later row, so a zero previous price
yields ±inf (or NaN for 0/0). -/
def pct_changeF (xs : List ℚ) (i : ℕ) : FVal :=
  if 1 ≤ i ∧ i < xs.length then
    FVal.div (.fin (xs.getD i 0 - xs.getD (i - 1) 0))
      (.fin (xs.getD (i - 1) 0))
  else .nan

/-- `df['Daily Return']` in full float semantics. -/
def dailyReturnListF (xs : List ℚ) : List FVal :=
  (List.range xs.length).map (pct_changeF xs)

/-- `Series.cumprod(skipna=True)` over float values: pandas masks the NaN
entries (factor 1), runs the running product over the rest — infinities
included — and restores NaN at the masked positions.  A NaN produced by
the accumulation itself (e.g. `0 * inf`) propagates forward. -/
def cumprodGoF (acc : FVal) : List FVal → List FVal
  | [] => []
  | .nan :: rest => .nan :: cumprodGoF acc rest
  | v :: rest => FVal.mul acc v :: cumprodGoF (FVal.mul acc v) rest

/-- `df['Cumulative Return'] = (1 + df['Daily Return']).cumprod() - 1` in
full float semantics. -/
def cumulativeReturnListF (xs : List ℚ) : List FVal :=
  (cumprodGoF (.fin 1)
    ((dailyReturnListF xs).map (fun v => FVal.add (.fin 1) v))).map
    (fun v => FVal.sub v (.fin 1))

/-- `df['MACD'] = df['12-day EMA'] - df['26-day EMA']`. -/
def macdList (xs : List ℚ) : List ℚ :=
  List.zipWith (fun a b => a - b) (ewm_mean 12 xs) (ewm_mean 26 xs)

/-- `df['Signal Line'] = df['MACD'].ewm(span=9, adjust=False).mean()`. -/
def signalList (xs : List ℚ) : List ℚ := ewm_mean 9 (macdList xs)

/-- `df['MACD Histogram'] = df['MACD'] - df['Signal Line']`. -/
def histList (xs : List ℚ) : List ℚ :=
  List.zipWith (fun a b => a - b) (macdList xs) (signalList xs)

/-- `df['Upper Band'] = df['20-day MA'] + (df['Std Dev'] * 2)` (NaN as soon
as either operand is NaN). -/
def upperBandCol (sqrt : ℚ → ℚ) (xs : List ℚ) (i : ℕ) : Option ℚ :=
  match rollingMean 20 xs i, rollingStd sqrt 20 xs i with
  | some m, some s => some (m + s * 2)
  | _, _ => none

/-- `df['Lower Band'] = df['20-day MA'] - (df['Std Dev'] * 2)`. -/
def lowerBandCol (sqrt : ℚ → ℚ) (xs : List ℚ) (i : ℕ) : Option ℚ :=
  match rollingMean 20 xs i, rollingStd sqrt 20 xs i with
  | some m, some s => some (m - s * 2)
  | _, _ => none

/-- One row of the output frame `df`: the input columns plus every derived
indicator column. -/
structure IndicatorRow where
  timestamp : ℤ
  price : ℚ
  ma7 : Option ℚ
  ma30 : Option ℚ
  priceChangePct : Option ℚ
  ma20 : Option ℚ
  stdDev : Option ℚ
  upperBand : Option ℚ
  lowerBand : Option ℚ
  rsi : FVal
  ema12 : ℚ
  ema26 : ℚ
  macd : ℚ
  signalLine : ℚ
  macdHistogram : ℚ
  dailyReturn : Option ℚ
  cumulativeReturn : Option ℚ
deriving DecidableEq, Repr

/-- Row `i` of the output frame, assembled from the column series. -/
def mkRow (sqrt : ℚ → ℚ) (input : List PricePoint) (i : ℕ) : IndicatorRow :=
  let xs := input.map PricePoint.price
  { timestamp := (input.getD i ⟨0, 0⟩).timestamp
    price := xs.getD i 0
    ma7 := rollingMean 7 xs i
    ma30 := rollingMean 30 xs i
    priceChangePct := (pct_change xs i).map (fun r => r * 100)
    ma20 := rollingMean 20 xs i
    stdDev := rollingStd sqrt 20 xs i
    upperBand := upperBandCol sqrt xs i
    lowerBand := lowerBandCol sqrt xs i
    rsi := rsiF xs i
    ema12 := (ewm_mean 12 xs).getD i 0
    ema26 := (ewm_mean 26 xs).getD i 0
    macd := (macdList xs).getD i 0
    signalLine := (signalList xs).getD i 0
    macdHistogram := (histList xs).getD i 0
    dailyReturn := pct_change xs i
    cumulativeReturn := (cumulativeReturnList xs).getD i none }

/-- The indicator engine of `fetch_crypto_data`: one output row per input
`PricePoint`.  The network fetch, timestamp parsing and the pass-through
volume frame are the out-of-scope collaborators of the spec. -/
def fetch_crypto_data (sqrt : ℚ → ℚ) (input : List PricePoint) : List IndicatorRow :=
  (List.range input.length).map (mkRow sqrt input)

/-- Placeholder row used as the `getD` default; claims only read rows at
in-range indices. -/
def dummyRow : IndicatorRow :=
  { timestamp := 0, price := 0, ma7 := none, ma30 := none,
    priceChangePct := none, ma20 := none, stdDev := none,
    upperBand := none, lowerBand := none, rsi := .nan,
    ema12 := 0, ema26 := 0, macd := 0, signalLine := 0,
    macdHistogram := 0, dailyReturn := none, cumulativeReturn := none }

/-- The price column of the input. -/
def pricesOf (input : List PricePoint) : List ℚ := input.map PricePoint.price

/-- Row `i` of the engine output. -/
def rowOf (sqrt : ℚ → ℚ) (input : List PricePoint) (i : ℕ) : IndicatorRow :=
  (fetch_crypto_data sqrt input).getD i dummyRow

/-! ### Basic lemmas about the engine output -/

theorem fetch_length (sqrt : ℚ → ℚ) (input : List PricePoint) :
    (fetch_crypto_data sqrt input).length = input.length := by
  simp [fetch_crypto_data]

theorem rowOf_eq_mkRow (sqrt : ℚ → ℚ) (input : List PricePoint) (i : ℕ)
    (h : i < input.length) : rowOf sqrt input i = mkRow sqrt input i := by
  unfold rowOf fetch_crypto_data
  rw [List.getD_eq_getElem _ _ (by simpa using h), List.getElem_map,
    List.getElem_range]

theorem pricesOf_length (input : List PricePoint) :
    (pricesOf input).length = input.length := by
  simp [pricesOf]

/-! ### Claims -/

/-- C1: the engine's output table has exactly as many rows as the input
price series, and output row `i` carries the timestamp of input
`PricePoint` `i` — every derived column is positionally aligned with its
input row. -/
theorem output_row_alignment (sqrt : ℚ → ℚ) (input : List PricePoint) :
    (fetch_crypto_data sqrt input).length = input.length ∧
    ∀ i, i < input.length →
      (rowOf sqrt input i).timestamp = (input.getD i ⟨0, 0⟩).timestamp := by
  refine ⟨fetch_length sqrt input, fun i hi => ?_⟩
  rw [rowOf_eq_mkRow sqrt input i hi]
  rfl

/-- Witness for C1 at the concrete two-point input
`[(5, 10), (6, 11)]`. -/
theorem output_row_alignment_witness :
    (fetch_crypto_data (fun q => q) [⟨5, 10⟩, ⟨6, 11⟩]).length = 2 ∧
    (rowOf (fun q => q) [⟨5, 10⟩, ⟨6, 11⟩] 1).timestamp = 6 := by
  obtain ⟨h1, h2⟩ := output_row_alignment (fun q => q) [⟨5, 10⟩, ⟨6, 11⟩]
  refine ⟨by simpa using h1, ?_⟩
  rw [h2 1 (by decide)]
  decide

/-- C9: on an empty input price series the engine returns an empty output
table; being a total function, it raises no error. -/
theorem empty_input_empty_output (sqrt : ℚ → ℚ) :
    fetch_crypto_data sqrt [] = [] := rfl

/-- C8: the percent-change column at row `i ≥ 1` is
`(price[i] - price[i-1]) / price[i-1] * 100` (under the claim's
precondition `price[i-1] ≠ 0`), and is missing at row 0. -/
theorem percent_change_correct (sqrt : ℚ → ℚ) (input : List PricePoint) (i : ℕ)
    (h1 : 1 ≤ i) (h2 : i < input.length)
    (hnz : (pricesOf input).getD (i - 1) 0 ≠ 0) :
    (rowOf sqrt input i).priceChangePct =
      some (((pricesOf input).getD i 0 - (pricesOf input).getD (i - 1) 0) /
        (pricesOf input).getD (i - 1) 0 * 100) ∧
    (rowOf sqrt input 0).priceChangePct = none := by
  constructor
  · rw [rowOf_eq_mkRow sqrt input i h2]
    show (pct_change (pricesOf input) i).map (fun r => r * 100) = _
    rw [pct_change, if_pos ⟨h1, by simpa [pricesOf] using h2⟩]
    rfl
  · rw [rowOf_eq_mkRow sqrt input 0 (Nat.lt_of_le_of_lt (Nat.zero_le i) h2)]
    show (pct_change (pricesOf input) 0).map (fun r => r * 100) = _
    rw [pct_change, if_neg (by simp)]
    rfl

/-! ### Sums over trailing windows -/

theorem sum_take (xs : List ℚ) (n : ℕ) :
    (xs.take n).sum = ∑ k ∈ Finset.range n, xs.getD k 0 := by
  induction xs generalizing n with
  | nil => simp
  | cons x t ih =>
    cases n with
    | zero => simp
    | succ m =>
      rw [List.take_succ_cons, List.sum_cons, ih, Finset.sum_range_succ']
      simp [add_comm]

theorem sum_window (w i : ℕ) (xs : List ℚ) (hw : w ≤ i + 1) :
    (window w i xs).sum = ∑ k ∈ Finset.Icc (i + 1 - w) i, xs.getD k 0 := by
  have hsplit : (xs.take (i + 1)).take (i + 1 - w) ++ window w i xs =
      xs.take (i + 1) := List.take_append_drop _ _
  have hsum : ((xs.take (i + 1)).take (i + 1 - w)).sum + (window w i xs).sum =
      (xs.take (i + 1)).sum := by rw [← List.sum_append, hsplit]
  have htt : (xs.take (i + 1)).take (i + 1 - w) = xs.take (i + 1 - w) := by
    rw [List.take_take, Nat.min_eq_left (Nat.sub_le _ _)]
  have hval : (window w i xs).sum =
      (xs.take (i + 1)).sum - (xs.take (i + 1 - w)).sum := by
    rw [← hsum, htt]; ring
  rw [hval, sum_take, sum_take,
    ← Finset.sum_Ico_eq_sub _ (Nat.sub_le _ _), Nat.Ico_succ_right]

/-- The spec's wording of the simple moving average: the arithmetic mean of
the prices at indices `[i-w+1, i]`. -/
def specSMA (w : ℕ) (xs : List ℚ) (i : ℕ) : ℚ :=
  (∑ k ∈ Finset.Icc (i + 1 - w) i, xs.getD k 0) / (w : ℚ)

theorem rollingMean_eq_specSMA (w i : ℕ) (xs : List ℚ) (hw : w ≤ i + 1)
    (hi : i < xs.length) : rollingMean w xs i = some (specSMA w xs i) := by
  rw [rollingMean, if_pos ⟨hw, hi⟩, sum_window w i xs hw, specSMA]

theorem rollingMean_eq_none (w i : ℕ) (xs : List ℚ) (hw : i + 1 < w) :
    rollingMean w xs i = none := by
  rw [rollingMean, if_neg]
  rintro ⟨h1, -⟩
  omega

/-- C2: for every window `w` among 7, 20, 30, the moving-average column at
row `i` is the arithmetic mean of the prices at indices `[i-w+1, i]` once
`i ≥ w-1`, and is missing for `i < w-1`. -/
theorem sma_columns_correct (sqrt : ℚ → ℚ) (input : List PricePoint) (i : ℕ)
    (h : i < input.length) :
    (6 ≤ i → (rowOf sqrt input i).ma7 = some (specSMA 7 (pricesOf input) i)) ∧
    (i < 6 → (rowOf sqrt input i).ma7 = none) ∧
    (19 ≤ i → (rowOf sqrt input i).ma20 = some (specSMA 20 (pricesOf input) i)) ∧
    (i < 19 → (rowOf sqrt input i).ma20 = none) ∧
    (29 ≤ i → (rowOf sqrt input i).ma30 = some (specSMA 30 (pricesOf input) i)) ∧
    (i < 29 → (rowOf sqrt input i).ma30 = none) := by
  rw [rowOf_eq_mkRow sqrt input i h]
  have hlen : i < (pricesOf input).length := by simpa [pricesOf] using h
  exact ⟨fun h7 => rollingMean_eq_specSMA 7 i _ (by omega) hlen,
    fun h7 => rollingMean_eq_none 7 i _ (by omega),
    fun h20 => rollingMean_eq_specSMA 20 i _ (by omega) hlen,
    fun h20 => rollingMean_eq_none 20 i _ (by omega),
    fun h30 => rollingMean_eq_specSMA 30 i _ (by omega) hlen,
    fun h30 => rollingMean_eq_none 30 i _ (by omega)⟩

/-- The spec's ten-point example series: prices 1..10, daily timestamps. -/
def exInput10 : List PricePoint :=
  [⟨0, 1⟩, ⟨1, 2⟩, ⟨2, 3⟩, ⟨3, 4⟩, ⟨4, 5⟩, ⟨5, 6⟩, ⟨6, 7⟩, ⟨7, 8⟩, ⟨8, 9⟩, ⟨9, 10⟩]

/-- Witness for C2: on prices `[1..10]`, `SMA(7)` at row 6 is `4` and is
missing at row 0. -/
theorem sma_columns_correct_witness :
    (rowOf (fun q => q) exInput10 6).ma7 = some 4 ∧
    (rowOf (fun q => q) exInput10 0).ma7 = none := by
  obtain ⟨h6, -, -, -, -, -⟩ :=
    sma_columns_correct (fun q => q) exInput10 6 (by decide)
  obtain ⟨-, h0, -, -, -, -⟩ :=
    sma_columns_correct (fun q => q) exInput10 0 (by decide)
  refine ⟨?_, h0 (by decide)⟩
  rw [h6 (by decide)]
  norm_num [specSMA, pricesOf, exInput10,
    show Finset.Icc 0 6 = Finset.range 7 by rfl, Finset.sum_range_succ]

/-- Witness for C8: for prices `[1, 2, 3]` the percent change at row 1 is
`100`, and row 0 is missing. -/
theorem percent_change_correct_witness :
    (rowOf (fun q => q) [⟨0, 1⟩, ⟨1, 2⟩, ⟨2, 3⟩] 1).priceChangePct = some 100 ∧
    (rowOf (fun q => q) [⟨0, 1⟩, ⟨1, 2⟩, ⟨2, 3⟩] 0).priceChangePct = none := by
  obtain ⟨ha, hb⟩ := percent_change_correct (fun q => q)
    [⟨0, 1⟩, ⟨1, 2⟩, ⟨2, 3⟩] 1 (by decide) (by decide) (by norm_num [pricesOf])
  exact ⟨by rw [ha]; norm_num [pricesOf], hb⟩

/-! ### Exponential moving averages -/

theorem ewmGo_length (a prev : ℚ) (xs : List ℚ) :
    (ewmGo a prev xs).length = xs.length := by
  induction xs generalizing prev with
  | nil => rfl
  | cons x t ih => simp [ewmGo, ih]

theorem ewm_mean_length (span : ℕ) (xs : List ℚ) :
    (ewm_mean span xs).length = xs.length := by
  cases xs with
  | nil => rfl
  | cons x t => simp [ewm_mean, ewmGo_length]

theorem ewmGo_getD (a prev : ℚ) (xs : List ℚ) (i : ℕ) (h : i < xs.length) :
    (ewmGo a prev xs).getD i 0 =
      a * xs.getD i 0 +
        (1 - a) * (if i = 0 then prev else (ewmGo a prev xs).getD (i - 1) 0) := by
  induction xs generalizing prev i with
  | nil => simp at h
  | cons x t ih =>
    cases i with
    | zero => simp [ewmGo]
    | succ j =>
      have hj : j < t.length := by simpa using h
      show (ewmGo a (a * x + (1 - a) * prev) t).getD j 0 = _
      rw [ih (a * x + (1 - a) * prev) j hj]
      cases j with
      | zero => simp [ewmGo]
      | succ k => simp [ewmGo]

theorem ewm_mean_getD_zero (span : ℕ) (xs : List ℚ) (h : 0 < xs.length) :
    (ewm_mean span xs).getD 0 0 = xs.getD 0 0 := by
  cases xs with
  | nil => simp at h
  | cons x t => rfl

theorem ewm_mean_rec (span : ℕ) (xs : List ℚ) (i : ℕ) (h0 : 0 < i)
    (h : i < xs.length) :
    (ewm_mean span xs).getD i 0 =
      2 / ((span : ℚ) + 1) * xs.getD i 0 +
        (1 - 2 / ((span : ℚ) + 1)) * (ewm_mean span xs).getD (i - 1) 0 := by
  cases xs with
  | nil => simp at h
  | cons x t =>
    obtain ⟨j, rfl⟩ : ∃ j, i = j + 1 := ⟨i - 1, (Nat.succ_pred_eq_of_pos h0).symm⟩
    have hj : j < t.length := by simpa using h
    show (ewmGo (2 / ((span : ℚ) + 1)) x t).getD j 0 = _
    rw [ewmGo_getD _ _ _ _ hj]
    cases j with
    | zero => simp [ewm_mean]
    | succ k => simp [ewm_mean]

theorem macdList_length (xs : List ℚ) : (macdList xs).length = xs.length := by
  simp [macdList, ewm_mean_length]

theorem macdList_getD (xs : List ℚ) (i : ℕ) (h : i < xs.length) :
    (macdList xs).getD i 0 =
      (ewm_mean 12 xs).getD i 0 - (ewm_mean 26 xs).getD i 0 := by
  rw [List.getD_eq_getElem _ _ (by simpa [macdList_length] using h),
    List.getD_eq_getElem _ _ (by simpa [ewm_mean_length] using h),
    List.getD_eq_getElem _ _ (by simpa [ewm_mean_length] using h)]
  exact List.getElem_zipWith

/-- C3: the EMA columns are defined from row 0 with no warm-up gap: each
seeds at `price[0]` (the signal line at `MACD[0]`) and satisfies
`ema[i] = a * x[i] + (1 - a) * ema[i-1]` with `a = 2 / (span + 1)` for
spans 12 and 26 on the prices and span 9 on the MACD series. -/
theorem ema_no_warmup_gap (sqrt : ℚ → ℚ) (input : List PricePoint) (i : ℕ)
    (h : i < input.length) :
    (i = 0 →
      (rowOf sqrt input 0).ema12 = (pricesOf input).getD 0 0 ∧
      (rowOf sqrt input 0).ema26 = (pricesOf input).getD 0 0 ∧
      (rowOf sqrt input 0).signalLine = (rowOf sqrt input 0).macd) ∧
    (0 < i →
      (rowOf sqrt input i).ema12 =
        2 / (12 + 1) * (pricesOf input).getD i 0 +
          (1 - 2 / (12 + 1)) * (rowOf sqrt input (i - 1)).ema12 ∧
      (rowOf sqrt input i).ema26 =
        2 / (26 + 1) * (pricesOf input).getD i 0 +
          (1 - 2 / (26 + 1)) * (rowOf sqrt input (i - 1)).ema26 ∧
      (rowOf sqrt input i).signalLine =
        2 / (9 + 1) * (rowOf sqrt input i).macd +
          (1 - 2 / (9 + 1)) * (rowOf sqrt input (i - 1)).signalLine) := by
  have hlen : i < (pricesOf input).length := by simpa [pricesOf] using h
  have h0len : 0 < input.length := Nat.lt_of_le_of_lt (Nat.zero_le i) h
  have h0len' : 0 < (pricesOf input).length := by simpa [pricesOf] using h0len
  constructor
  · rintro rfl
    rw [rowOf_eq_mkRow sqrt input 0 h]
    refine ⟨ewm_mean_getD_zero 12 _ h0len', ewm_mean_getD_zero 26 _ h0len', ?_⟩
    show (signalList (pricesOf input)).getD 0 0 = (macdList (pricesOf input)).getD 0 0
    rw [signalList, ewm_mean_getD_zero 9 _ (by simpa [macdList_length] using h0len')]
  · intro hpos
    have hprev : i - 1 < input.length := by omega
    rw [rowOf_eq_mkRow sqrt input i h, rowOf_eq_mkRow sqrt input (i - 1) hprev]
    refine ⟨?_, ?_, ?_⟩
    · show (ewm_mean 12 (pricesOf input)).getD i 0 = _
      rw [ewm_mean_rec 12 _ i hpos hlen]; norm_num [mkRow, pricesOf]
    · show (ewm_mean 26 (pricesOf input)).getD i 0 = _
      rw [ewm_mean_rec 26 _ i hpos hlen]; norm_num [mkRow, pricesOf]
    · show (signalList (pricesOf input)).getD i 0 = _
      rw [signalList, ewm_mean_rec 9 _ i hpos (by simpa [macdList_length] using hlen)]
      norm_num [mkRow, signalList, pricesOf]

/-- Witness for C3 on prices `[1, 3]`: `ema12` seeds at 1 and equals
`2/13 * 3 + 11/13 * 1 = 17/13` at row 1. -/
theorem ema_no_warmup_gap_witness :
    (rowOf (fun q => q) [⟨0, 1⟩, ⟨1, 3⟩] 0).ema12 = 1 ∧
    (rowOf (fun q => q) [⟨0, 1⟩, ⟨1, 3⟩] 1).ema12 = 17 / 13 := by
  obtain ⟨hz, -⟩ := ema_no_warmup_gap (fun q => q) [⟨0, 1⟩, ⟨1, 3⟩] 0 (by decide)
  obtain ⟨-, hs⟩ := ema_no_warmup_gap (fun q => q) [⟨0, 1⟩, ⟨1, 3⟩] 1 (by decide)
  obtain ⟨h12z, -, -⟩ := hz rfl
  obtain ⟨h12, -, -⟩ := hs (by decide)
  have hz1 : (rowOf (fun q => q) [⟨0, 1⟩, ⟨1, 3⟩] 0).ema12 = 1 := by
    rw [h12z]; norm_num [pricesOf]
  refine ⟨hz1, ?_⟩
  rw [h12, hz1]
  norm_num [pricesOf]

/-! ### Bollinger bands -/

/-- C4: wherever the 20-row window is full, the Bollinger bands are
symmetric around the 20-row SMA centre, both sides being exactly twice the
sample standard deviation of the same window; this holds for every square
root function, hence for the library's float square root. -/
theorem bollinger_bands_symmetric (sqrt : ℚ → ℚ) (input : List PricePoint)
    (i : ℕ) (h19 : 19 ≤ i) (h : i < input.length) :
    ∃ u c l s, (rowOf sqrt input i).upperBand = some u ∧
      (rowOf sqrt input i).ma20 = some c ∧
      (rowOf sqrt input i).lowerBand = some l ∧
      (rowOf sqrt input i).stdDev = some s ∧
      u - c = c - l ∧ u - c = 2 * s ∧ c - l = 2 * s := by
  have hcond : 20 ≤ i + 1 ∧ i < (pricesOf input).length :=
    ⟨by omega, by simpa [pricesOf] using h⟩
  rw [rowOf_eq_mkRow sqrt input i h]
  obtain ⟨c, hmean⟩ : ∃ c, rollingMean 20 (pricesOf input) i = some c :=
    ⟨_, by rw [rollingMean, if_pos hcond]⟩
  obtain ⟨s, hstd⟩ : ∃ s, rollingStd sqrt 20 (pricesOf input) i = some s := by
    rw [rollingStd, rollingVar, hmean]
    exact ⟨_, rfl⟩
  refine ⟨c + s * 2, c, c - s * 2, s, ?_, ?_, ?_, ?_, by ring, by ring, by ring⟩
  · show upperBandCol sqrt (pricesOf input) i = _
    rw [upperBandCol, hmean, hstd]
  · show rollingMean 20 (pricesOf input) i = _
    exact hmean
  · show lowerBandCol sqrt (pricesOf input) i = _
    rw [lowerBandCol, hmean, hstd]
  · show rollingStd sqrt 20 (pricesOf input) i = _
    exact hstd

/-- A 20-point input series with prices 1..20. -/
def exInput20 : List PricePoint :=
  [⟨0, 1⟩, ⟨1, 2⟩, ⟨2, 3⟩, ⟨3, 4⟩, ⟨4, 5⟩, ⟨5, 6⟩, ⟨6, 7⟩, ⟨7, 8⟩, ⟨8, 9⟩,
   ⟨9, 10⟩, ⟨10, 11⟩, ⟨11, 12⟩, ⟨12, 13⟩, ⟨13, 14⟩, ⟨14, 15⟩, ⟨15, 16⟩,
   ⟨16, 17⟩, ⟨17, 18⟩, ⟨18, 19⟩, ⟨19, 20⟩]

/-- Witness for C4: at row 19 of prices 1..20 the four Bollinger fields are
defined and symmetric around the centre. -/
theorem bollinger_bands_symmetric_witness :
    ∃ u c l s, (rowOf (fun q => q) exInput20 19).upperBand = some u ∧
      (rowOf (fun q => q) exInput20 19).ma20 = some c ∧
      (rowOf (fun q => q) exInput20 19).lowerBand = some l ∧
      (rowOf (fun q => q) exInput20 19).stdDev = some s ∧
      u - c = c - l ∧ u - c = 2 * s ∧ c - l = 2 * s :=
  bollinger_bands_symmetric (fun q => q) exInput20 19 (by decide) (by decide)

/-! ### RSI -/

theorem gainAt_nonneg (xs : List ℚ) (i : ℕ) : 0 ≤ gainAt xs i := by
  unfold gainAt
  cases deltaF xs i with
  | fin d =>
    dsimp only
    split
    · linarith
    · exact le_refl 0
  | inf s => exact le_refl 0
  | nan => exact le_refl 0

theorem avg_gain_nonneg (xs : List ℚ) (i : ℕ) (g : ℚ)
    (hg : avg_gain xs i = some g) : 0 ≤ g := by
  rw [avg_gain, rollingMean] at hg
  by_cases hc : 14 ≤ i + 1 ∧ i < (gains xs).length
  · rw [if_pos hc] at hg
    obtain rfl := (Option.some.inj hg).symm
    refine div_nonneg (List.sum_nonneg ?_) (by norm_num)
    intro x hx
    have hx1 : x ∈ gains xs := List.mem_of_mem_take (List.mem_of_mem_drop hx)
    obtain ⟨k, -, rfl⟩ := List.mem_map.mp hx1
    exact gainAt_nonneg xs k
  · rw [if_neg hc] at hg
    exact absurd hg (by simp)

/-- C5: whenever the 14-row average loss is defined and strictly positive,
the RSI value is a finite number in the closed interval `[0, 100]`. -/
theorem rsi_bounded (sqrt : ℚ → ℚ) (input : List PricePoint) (i : ℕ) (l : ℚ)
    (hi : i < input.length)
    (hl : avg_loss (pricesOf input) i = some l) (hpos : 0 < l) :
    ∃ r, (rowOf sqrt input i).rsi = FVal.fin r ∧ 0 ≤ r ∧ r ≤ 100 := by
  have hcond : 14 ≤ i + 1 ∧ i < (losses (pricesOf input)).length := by
    by_contra hc
    rw [avg_loss, rollingMean, if_neg hc] at hl
    exact Option.noConfusion hl
  have hcondg : 14 ≤ i + 1 ∧ i < (gains (pricesOf input)).length :=
    ⟨hcond.1, by simpa [gains, losses] using hcond.2⟩
  obtain ⟨g, hg⟩ : ∃ g, avg_gain (pricesOf input) i = some g :=
    ⟨_, by rw [avg_gain, rollingMean, if_pos hcondg]⟩
  have hgnn : 0 ≤ g := avg_gain_nonneg _ _ _ hg
  have hlne : l ≠ 0 := ne_of_gt hpos
  have hdiv : 0 ≤ g / l := div_nonneg hgnn (le_of_lt hpos)
  have hone : (0 : ℚ) < 1 + g / l := by linarith
  have hrs : rsF (pricesOf input) i = .fin (g / l) := by
    rw [rsF, hg, hl]
    show FVal.div (.fin g) (.fin l) = _
    simp [FVal.div, hlne]
  have hrsi : rsiF (pricesOf input) i = .fin (100 - 100 / (1 + g / l)) := by
    rw [rsiF, hrs]
    show FVal.sub (.fin 100) (FVal.div (.fin 100) (.fin (1 + g / l))) = _
    simp [FVal.div, FVal.sub, ne_of_gt hone]
  refine ⟨100 - 100 / (1 + g / l), ?_, ?_, ?_⟩
  · rw [rowOf_eq_mkRow sqrt input i hi]
    show rsiF (pricesOf input) i = _
    exact hrsi
  · have hle : 100 / (1 + g / l) ≤ 100 := div_le_self (by norm_num) (by linarith)
    linarith
  · have hgt : 0 < 100 / (1 + g / l) := div_pos (by norm_num) hone
    linarith

/-- A strictly decreasing 14-point series: every delta is a loss, so the
average loss over the full window is positive. -/
def exInput14down : List PricePoint :=
  [⟨0, 14⟩, ⟨1, 13⟩, ⟨2, 12⟩, ⟨3, 11⟩, ⟨4, 10⟩, ⟨5, 9⟩, ⟨6, 8⟩, ⟨7, 7⟩,
   ⟨8, 6⟩, ⟨9, 5⟩, ⟨10, 4⟩, ⟨11, 3⟩, ⟨12, 2⟩, ⟨13, 1⟩]

/-- Witness for C5: at row 13 of the decreasing series the average loss is
`13/14 > 0` and the RSI is a finite value in `[0, 100]`. -/
theorem rsi_bounded_witness :
    ∃ r, (rowOf (fun q => q) exInput14down 13).rsi = FVal.fin r ∧
      0 ≤ r ∧ r ≤ 100 :=
  rsi_bounded (fun q => q) exInput14down 13 (13 / 14) (by decide)
    (by norm_num [avg_loss, rollingMean, window, losses, lossAt, deltaF,
      pricesOf, exInput14down, List.range_succ])
    (by norm_num)

/-- A constant 14-point series (price 1 throughout): non-decreasing with a
full 14-row window and zero average loss. -/
def exInputConst14 : List PricePoint :=
  [⟨0, 1⟩, ⟨1, 1⟩, ⟨2, 1⟩, ⟨3, 1⟩, ⟨4, 1⟩, ⟨5, 1⟩, ⟨6, 1⟩, ⟨7, 1⟩,
   ⟨8, 1⟩, ⟨9, 1⟩, ⟨10, 1⟩, ⟨11, 1⟩, ⟨12, 1⟩, ⟨13, 1⟩]

/-- C6: the division `avg_gain / avg_loss` is unguarded: on a
non-decreasing (here constant) series the average loss is exactly 0 at a
defined index, the division is still performed (`0/0`), and the RSI comes
out NaN — not a finite number, and not the conventional 100. -/
theorem rsi_division_unguarded :
    avg_loss (pricesOf exInputConst14) 13 = some 0 ∧
    (rowOf (fun q => q) exInputConst14 13).rsi = FVal.nan ∧
    FVal.nan ≠ FVal.fin 100 := by
  refine ⟨?_, ?_, by simp⟩
  · norm_num [avg_loss, rollingMean, window, losses, lossAt, deltaF,
      pricesOf, exInputConst14, List.range_succ]
  · rw [rowOf_eq_mkRow _ _ _ (by decide)]
    show rsiF (pricesOf exInputConst14) 13 = _
    norm_num [rsiF, rsF, optF, avg_gain, avg_loss, rollingMean, window,
      losses, lossAt, gains, gainAt, deltaF, pricesOf, exInputConst14,
      List.range_succ, FVal.add, FVal.sub, FVal.div]

/-! ### Cumulative return -/

theorem cumprodGo_length (acc : ℚ) (xs : List (Option ℚ)) :
    (cumprodGo acc xs).length = xs.length := by
  induction xs generalizing acc with
  | nil => rfl
  | cons x t ih =>
    cases x with
    | none => simp [cumprodGo, ih]
    | some v => simp [cumprodGo, ih]

theorem cumulativeReturnList_length (xs : List ℚ) :
    (cumulativeReturnList xs).length = xs.length := by
  simp [cumulativeReturnList, cumprod_skipna, cumprodGo_length, dailyReturnList]

/-- Characterisation of `cumprod` with `skipna`: a NaN entry stays NaN; a
present entry gets `acc` times the product of all present entries so far
(missing entries contribute the factor 1). -/
theorem cumprodGo_getD (acc : ℚ) (xs : List (Option ℚ)) (i : ℕ)
    (h : i < xs.length) :
    (cumprodGo acc xs).getD i none =
      if (xs.getD i none).isSome then
        some (acc * ((xs.take (i + 1)).map (fun o => o.getD 1)).prod)
      else none := by
  induction xs generalizing acc i with
  | nil => simp at h
  | cons x t ih =>
    cases x with
    | none =>
      cases i with
      | zero => simp [cumprodGo]
      | succ j =>
        have hj : j < t.length := by simpa using h
        show (cumprodGo acc t).getD j none = _
        rw [ih acc j hj]
        simp
    | some v =>
      cases i with
      | zero => simp [cumprodGo]
      | succ j =>
        have hj : j < t.length := by simpa using h
        show (cumprodGo (acc * v) t).getD j none = _
        rw [ih (acc * v) j hj]
        simp [mul_assoc]

theorem getD_map_optmap (g : ℚ → ℚ) (l : List (Option ℚ)) (i : ℕ)
    (h : i < l.length) :
    (l.map (Option.map g)).getD i none = (l.getD i none).map g := by
  rw [List.getD_eq_getElem _ _ (by simpa using h), List.getElem_map,
    List.getD_eq_getElem _ _ h]

theorem dailyReturnList_getD (xs : List ℚ) (i : ℕ) (h : i < xs.length) :
    (dailyReturnList xs).getD i none = pct_change xs i := by
  rw [dailyReturnList, List.getD_eq_getElem _ _ (by simpa using h),
    List.getElem_map, List.getElem_range]

theorem prod_map_range (n : ℕ) (f : ℕ → ℚ) :
    ((List.range n).map f).prod = ∏ k ∈ Finset.range n, f k := by
  induction n with
  | zero => simp
  | succ m ih =>
    rw [List.range_succ, List.map_append, List.prod_append, ih,
      Finset.prod_range_succ]
    simp

/-- The spec's per-row daily return with the missing first value
"treated as 0" in the product formula. -/
def specDailyReturn (xs : List ℚ) (k : ℕ) : ℚ :=
  if k = 0 then 0 else (xs.getD k 0 - xs.getD (k - 1) 0) / xs.getD (k - 1) 0

theorem cumulativeReturnList_getD (xs : List ℚ) (i : ℕ) (h1 : 1 ≤ i)
    (h2 : i < xs.length) :
    (cumulativeReturnList xs).getD i none =
      some ((∏ k ∈ Finset.range (i + 1), (1 + specDailyReturn xs k)) - 1) := by
  have hL : ((dailyReturnList xs).map (Option.map (fun r => 1 + r))).length =
      xs.length := by simp [dailyReturnList]
  have hgo : i < (cumprod_skipna
      ((dailyReturnList xs).map (Option.map (fun r => 1 + r)))).length := by
    rw [cumprod_skipna, cumprodGo_length, hL]; exact h2
  have hcc : 1 ≤ i ∧ i < xs.length := ⟨h1, h2⟩
  rw [cumulativeReturnList, getD_map_optmap _ _ _ hgo, cumprod_skipna,
    cumprodGo_getD _ _ _ (by rw [hL]; exact h2),
    getD_map_optmap _ _ _ (by simp [dailyReturnList]; exact h2),
    dailyReturnList_getD xs i h2, pct_change, if_pos hcc]
  have htake : (((dailyReturnList xs).map (Option.map (fun r => 1 + r))).take
      (i + 1)).map (fun o => o.getD 1) =
      (List.range (i + 1)).map
        (fun k => ((pct_change xs k).map (fun r => 1 + r)).getD 1) := by
    rw [dailyReturnList, ← List.map_take, ← List.map_take, List.take_range,
      Nat.min_eq_left (by omega : i + 1 ≤ xs.length), List.map_map,
      List.map_map]
    rfl
  rw [htake, prod_map_range]
  have hprod : (∏ k ∈ Finset.range (i + 1),
      ((pct_change xs k).map (fun r => 1 + r)).getD 1) =
      ∏ k ∈ Finset.range (i + 1), (1 + specDailyReturn xs k) := by
    refine Finset.prod_congr rfl (fun k hk => ?_)
    have hki : k ≤ i := by simpa [Nat.lt_succ_iff] using hk
    by_cases hk0 : k = 0
    · subst hk0
      simp [pct_change, specDailyReturn]
    · rw [pct_change, if_pos ⟨by omega, by omega⟩, specDailyReturn, if_neg hk0]
      rfl
  rw [hprod]
  simp

theorem cumulativeReturnList_getD_zero (xs : List ℚ) (h : 0 < xs.length) :
    (cumulativeReturnList xs).getD 0 none = none := by
  have hL : ((dailyReturnList xs).map (Option.map (fun r => 1 + r))).length =
      xs.length := by simp [dailyReturnList]
  have hgo : 0 < (cumprod_skipna
      ((dailyReturnList xs).map (Option.map (fun r => 1 + r)))).length := by
    rw [cumprod_skipna, cumprodGo_length, hL]; exact h
  rw [cumulativeReturnList, getD_map_optmap _ _ _ hgo, cumprod_skipna,
    cumprodGo_getD _ _ _ (by rw [hL]; exact h),
    getD_map_optmap _ _ _ (by simp [dailyReturnList]; exact h),
    dailyReturnList_getD xs 0 h, pct_change, if_neg (by simp)]
  rfl

/-! ### The full float model of the cumulative-return column, and its
agreement with the rational model on series with no zero price -/

theorem optF_add_one (o : Option ℚ) :
    FVal.add (.fin 1) (optF o) = optF (o.map (fun r => 1 + r)) := by
  cases o <;> rfl

theorem optF_sub_one (o : Option ℚ) :
    FVal.sub (optF o) (.fin 1) = optF (o.map (fun p => p - 1)) := by
  cases o <;> rfl

theorem pct_changeF_eq (xs : List ℚ)
    (hnz : ∀ k, k < xs.length → xs.getD k 0 ≠ 0) (i : ℕ) :
    pct_changeF xs i = optF (pct_change xs i) := by
  by_cases hc : 1 ≤ i ∧ i < xs.length
  · rw [pct_changeF, if_pos hc, pct_change, if_pos hc]
    have hb : xs.getD (i - 1) 0 ≠ 0 := hnz (i - 1) (by omega)
    simp only [FVal.div, optF]
    rw [if_pos hb]
  · rw [pct_changeF, if_neg hc, pct_change, if_neg hc]
    rfl

theorem dailyReturnListF_eq (xs : List ℚ)
    (hnz : ∀ k, k < xs.length → xs.getD k 0 ≠ 0) :
    dailyReturnListF xs = (dailyReturnList xs).map optF := by
  rw [dailyReturnListF, dailyReturnList, List.map_map]
  exact List.map_congr_left (fun k _ => pct_changeF_eq xs hnz k)

theorem cumprodGoF_map (L : List (Option ℚ)) (acc : ℚ) :
    cumprodGoF (.fin acc) (L.map optF) = (cumprodGo acc L).map optF := by
  induction L generalizing acc with
  | nil => rfl
  | cons x t ih =>
    cases x with
    | none => simp [optF, cumprodGoF, cumprodGo, ih]
    | some v => simp [optF, cumprodGoF, cumprodGo, FVal.mul, ih]

theorem cumulativeReturnListF_eq (xs : List ℚ)
    (hnz : ∀ k, k < xs.length → xs.getD k 0 ≠ 0) :
    cumulativeReturnListF xs = (cumulativeReturnList xs).map optF := by
  rw [cumulativeReturnListF, cumulativeReturnList, cumprod_skipna,
    dailyReturnListF_eq xs hnz, List.map_map]
  have h1 : (dailyReturnList xs).map
      ((fun v => FVal.add (.fin 1) v) ∘ optF) =
      ((dailyReturnList xs).map (Option.map (fun r => 1 + r))).map optF := by
    rw [List.map_map]
    exact List.map_congr_left (fun o _ => optF_add_one o)
  rw [h1, cumprodGoF_map _ 1, List.map_map, List.map_map]
  exact List.map_congr_left (fun o _ => optF_sub_one o)

theorem getD_map_optF (L : List (Option ℚ)) (i : ℕ) :
    (L.map optF).getD i FVal.nan = optF (L.getD i none) := by
  induction L generalizing i with
  | nil => rfl
  | cons x t ih =>
    cases i with
    | zero => rfl
    | succ j => simpa using ih j

/-- C7 counterexample, refuting both parts of the claim on the code.
(a) On prices `[100, 110, 99]` the cumulative-return column at index 0 is
missing (NaN), not 0 — pandas `cumprod` keeps the NaN of the first daily
return in place.  (b) The product formula does not hold at every index of
every series: on prices `[5, 0, 10]` the float pipeline meets `0 * inf`
inside the cumulative product, so row 2 is NaN — not a finite value at
all (in particular not the `-1` a rational reading would give). -/
theorem cumulative_return_claim_fails :
    (rowOf (fun q => q) [⟨0, 100⟩, ⟨1, 110⟩, ⟨2, 99⟩] 0).cumulativeReturn ≠
      some 0 ∧
    (rowOf (fun q => q) [⟨0, 100⟩, ⟨1, 110⟩, ⟨2, 99⟩] 0).cumulativeReturn =
      none ∧
    (cumulativeReturnListF [5, 0, 10]).getD 2 FVal.nan = FVal.nan ∧
    FVal.nan ≠ FVal.fin (-1) := by
  have hnone : (rowOf (fun q => q)
      [⟨0, 100⟩, ⟨1, 110⟩, ⟨2, 99⟩] 0).cumulativeReturn = none := by
    rw [rowOf_eq_mkRow _ _ _ (by decide)]
    show (cumulativeReturnList (pricesOf [⟨0, 100⟩, ⟨1, 110⟩, ⟨2, 99⟩])).getD
      0 none = none
    exact cumulativeReturnList_getD_zero _ (by decide)
  refine ⟨by rw [hnone]; simp, hnone, ?_, by simp⟩
  norm_num [cumulativeReturnListF, dailyReturnListF, pct_changeF,
    cumprodGoF, FVal.mul, FVal.add, FVal.sub, FVal.div, List.range_succ]

theorem pricesOf_getD_ne_zero (input : List PricePoint)
    (hnz : ∀ p ∈ input, p.price ≠ 0) (k : ℕ) (h : k < input.length) :
    (pricesOf input).getD k 0 ≠ 0 := by
  rw [pricesOf, List.getD_eq_getElem _ _ (by simpa using h), List.getElem_map]
  exact hnz _ (List.getElem_mem _)

/-- The per-row ratio product telescopes: when no price is zero,
`Π_{k≤i} (1 + specDailyReturn k) = price[i] / price[0]`. -/
theorem prod_one_add_specDailyReturn (xs : List ℚ)
    (hnz : ∀ k, k < xs.length → xs.getD k 0 ≠ 0) (i : ℕ) (h : i < xs.length) :
    (∏ k ∈ Finset.range (i + 1), (1 + specDailyReturn xs k)) =
      xs.getD i 0 / xs.getD 0 0 := by
  induction i with
  | zero =>
    rw [Finset.prod_range_one, specDailyReturn, if_pos rfl,
      div_self (hnz 0 (by omega))]
    norm_num
  | succ j ih =>
    have hj : j < xs.length := by omega
    have hxj : xs.getD j 0 ≠ 0 := hnz j hj
    rw [Finset.prod_range_succ, ih hj, specDailyReturn,
      if_neg (Nat.succ_ne_zero j)]
    have hstep : (1 : ℚ) +
        (xs.getD (j + 1) 0 - xs.getD (j + 1 - 1) 0) / xs.getD (j + 1 - 1) 0 =
        xs.getD (j + 1) 0 / xs.getD j 0 := by
      simp only [Nat.add_sub_cancel]
      rw [add_div' _ _ _ hxj]
      congr 1
      ring
    rw [hstep, div_mul_div_comm,
      mul_comm (xs.getD j 0) (xs.getD (j + 1) 0),
      mul_div_mul_right _ _ hxj]

/-- C10: with all prices nonzero, the cumulative-return column telescopes
to `price[i] / price[0] − 1` at every row `i ≥ 1`, and is missing at
row 0 (the first daily return is missing). -/
theorem cumulative_return_telescopes (sqrt : ℚ → ℚ) (input : List PricePoint)
    (hnz : ∀ p ∈ input, p.price ≠ 0) (i : ℕ) (h1 : 1 ≤ i)
    (h2 : i < input.length) :
    (rowOf sqrt input i).cumulativeReturn =
      some ((pricesOf input).getD i 0 / (pricesOf input).getD 0 0 - 1) ∧
    (rowOf sqrt input 0).cumulativeReturn = none := by
  have hlen : i < (pricesOf input).length := by simpa [pricesOf] using h2
  have h0 : 0 < input.length := Nat.lt_of_le_of_lt (Nat.zero_le i) h2
  have hnz' : ∀ k, k < (pricesOf input).length →
      (pricesOf input).getD k 0 ≠ 0 := fun k hk =>
    pricesOf_getD_ne_zero input hnz k (by simpa [pricesOf] using hk)
  constructor
  · rw [rowOf_eq_mkRow sqrt input i h2]
    show (cumulativeReturnList (pricesOf input)).getD i none = _
    rw [cumulativeReturnList_getD _ i h1 hlen,
      prod_one_add_specDailyReturn _ hnz' i hlen]
  · rw [rowOf_eq_mkRow sqrt input 0 h0]
    show (cumulativeReturnList (pricesOf input)).getD 0 none = _
    exact cumulativeReturnList_getD_zero _ (by simpa [pricesOf] using h0)

/-- Witness for C10: on prices `[100, 110, 99]` the row-2 cumulative
return is `99/100 − 1 = −1/100` and row 0 is missing. -/
theorem cumulative_return_telescopes_witness :
    (rowOf (fun q => q) [⟨0, 100⟩, ⟨1, 110⟩, ⟨2, 99⟩] 2).cumulativeReturn =
      some (99 / 100 - 1) ∧
    (rowOf (fun q => q) [⟨0, 100⟩, ⟨1, 110⟩, ⟨2, 99⟩] 0).cumulativeReturn =
      none := by
  obtain ⟨ha, hb⟩ := cumulative_return_telescopes (fun q => q)
    [⟨0, 100⟩, ⟨1, 110⟩, ⟨2, 99⟩]
    (by intro p hp; fin_cases hp <;> norm_num) 2 (by decide) (by decide)
  refine ⟨?_, hb⟩
  rw [ha]
  norm_num [pricesOf]

/-- C7 as amended: the cumulative-return column at row 0 is missing
(NaN), not 0; and on every series whose prices are all nonzero — the
region where every daily-return factor is a finite number, see the
counterexample for what a zero price does — at every row `i ≥ 1` the
column equals `Π_{k∈[0,i]} (1 + dailyReturn[k]) − 1` with the missing
`dailyReturn[0]` treated as 0, both in the full float model of the column
and in the engine's rational model. -/
theorem cumulative_return_is_product (sqrt : ℚ → ℚ) (input : List PricePoint)
    (hnz : ∀ p ∈ input, p.price ≠ 0) (i : ℕ) (h1 : 1 ≤ i)
    (h2 : i < input.length) :
    (cumulativeReturnListF (pricesOf input)).getD i FVal.nan =
      FVal.fin ((∏ k ∈ Finset.range (i + 1),
        (1 + specDailyReturn (pricesOf input) k)) - 1) ∧
    (rowOf sqrt input i).cumulativeReturn =
      some ((∏ k ∈ Finset.range (i + 1),
        (1 + specDailyReturn (pricesOf input) k)) - 1) ∧
    (cumulativeReturnListF (pricesOf input)).getD 0 FVal.nan = FVal.nan ∧
    (rowOf sqrt input 0).cumulativeReturn = none := by
  have hlen : i < (pricesOf input).length := by simpa [pricesOf] using h2
  have h0 : 0 < input.length := Nat.lt_of_le_of_lt (Nat.zero_le i) h2
  have h0' : 0 < (pricesOf input).length := by simpa [pricesOf] using h0
  have hnz' : ∀ k, k < (pricesOf input).length →
      (pricesOf input).getD k 0 ≠ 0 := fun k hk =>
    pricesOf_getD_ne_zero input hnz k (by simpa [pricesOf] using hk)
  refine ⟨?_, ?_, ?_, ?_⟩
  · rw [cumulativeReturnListF_eq _ hnz', getD_map_optF,
      cumulativeReturnList_getD _ i h1 hlen]
    rfl
  · rw [rowOf_eq_mkRow sqrt input i h2]
    show (cumulativeReturnList (pricesOf input)).getD i none = _
    exact cumulativeReturnList_getD _ i h1 hlen
  · rw [cumulativeReturnListF_eq _ hnz', getD_map_optF,
      cumulativeReturnList_getD_zero _ h0']
    rfl
  · rw [rowOf_eq_mkRow sqrt input 0 h0]
    show (cumulativeReturnList (pricesOf input)).getD 0 none = _
    exact cumulativeReturnList_getD_zero _ h0'

/-- Witness for C7's amended statement: on prices `[100, 110, 99]` (all
nonzero) the row-2 cumulative return is `(1·1.1·0.9) − 1 = −1/100`
(≈ −1%) in both models, and row 0 is missing. -/
theorem cumulative_return_is_product_witness :
    (cumulativeReturnListF (pricesOf [⟨0, 100⟩, ⟨1, 110⟩, ⟨2, 99⟩])).getD 2
      FVal.nan = FVal.fin (-1 / 100) ∧
    (rowOf (fun q => q) [⟨0, 100⟩, ⟨1, 110⟩, ⟨2, 99⟩] 2).cumulativeReturn =
      some (-1 / 100) ∧
    (rowOf (fun q => q) [⟨0, 100⟩, ⟨1, 110⟩, ⟨2, 99⟩] 0).cumulativeReturn =
      none := by
  obtain ⟨hf, ha, -, hb⟩ := cumulative_return_is_product (fun q => q)
    [⟨0, 100⟩, ⟨1, 110⟩, ⟨2, 99⟩]
    (by intro p hp; fin_cases hp <;> norm_num) 2 (by decide) (by decide)
  refine ⟨?_, ?_, hb⟩
  · rw [hf]
    norm_num [specDailyReturn, pricesOf, Finset.prod_range_succ]
  · rw [ha]
    norm_num [specDailyReturn, pricesOf, Finset.prod_range_succ]

end CryptoDashboard
